import Mathlib

/-!
Shallow embedding of `scripts/apply_breathable_spacing.py`, a five-pass
blank-line formatter.  A file is modelled as a `List Line` where each
`Line : List Char` is one line of text including its trailing `'\n'`
terminator (the final line may lack one), exactly as produced by Python's
`str.splitlines(keepends=True)` restricted to `'\n'` terminators (after
`read_text`'s universal-newline translation the text contains no `'\r'`).
Regex character classes are modelled over ASCII: `\s` is
`[ \t\n\r\x0b\x0c]` and `\w` is `[A-Za-z0-9_]`.
-/

abbrev Line := List Char

/-- Convert a string literal to a `Line` (its list of characters). -/
def lineOf (s : String) : Line := s.data

/-- Characters stripped by Python's `str.strip()` / matched by regex `\s` (ASCII). -/
def pyWs (c : Char) : Bool :=
  c == ' ' || c == '\t' || c == '\n' || c == '\r' || c == '\x0B' || c == '\x0C'

/-- Python `line.strip()`. -/
def stripL (l : Line) : Line :=
  ((l.dropWhile pyWs).reverse.dropWhile pyWs).reverse

/-- Python `line.strip() == ""`. -/
def isBlankL (l : Line) : Bool := (stripL l).isEmpty

/-- The bare newline line `"\n"` appended by every insertion site in the script. -/
def nl : Line := ['\n']

/-- Boolean prefix test on character lists (Python `str.startswith`). -/
def prefixB : List Char → List Char → Bool
  | [], _ => true
  | _ :: _, [] => false
  | a :: as, b :: bs => a == b && prefixB as bs

/-- Boolean substring test (Python `pat in s`). -/
def subStrB (pat : Line) : Line → Bool
  | [] => pat.isEmpty
  | c :: t => prefixB pat (c :: t) || subStrB pat t

/-- Regex `\w` over ASCII: letters, digits, underscore. -/
def wordChar (c : Char) : Bool := c.isAlpha || c.isDigit || c == '_'

/-- Regex `\b` right after a literal keyword: next char (if any) is not a word char. -/
def boundaryOK : Line → Bool
  | [] => true
  | c :: _ => !wordChar c

/-- Match `kw\b` at the start of `s`. -/
def kwB (kw : List Char) (s : Line) : Bool :=
  prefixB kw s && boundaryOK (s.drop kw.length)

/-- Match `kw\s+` at the start of `s` (at least one whitespace char follows `kw`). -/
def kwWsB (kw : List Char) (s : Line) : Bool :=
  prefixB kw s &&
    (match s.drop kw.length with
     | [] => false
     | c :: _ => pyWs c)

/-- Match `pub\s+` then `p` on the remainder.  The regexes use `(?:pub\s+)?`;
since no keyword begins with a whitespace character or with `p`, the greedy
reading is exact. -/
def pubWsThen (p : Line → Bool) : Line → Bool
  | [] => false
  | a :: s1 =>
    a == 'p' &&
      (match s1 with
       | [] => false
       | b :: s2 =>
         b == 'u' &&
           (match s2 with
            | [] => false
            | c :: rest =>
              c == 'b' &&
                (match rest with | [] => false | d :: _ => pyWs d) &&
                p (rest.dropWhile pyWs)))

/-- Keyword alternative of `item_start_re`: `(?:struct|enum|trait|impl|fn)\b`. -/
def itemKw (s : Line) : Bool :=
  kwB ['s','t','r','u','c','t'] s || kwB ['e','n','u','m'] s ||
  kwB ['t','r','a','i','t'] s || kwB ['i','m','p','l'] s || kwB ['f','n'] s

/-- `item_start_re = ^(?:pub\s+)?(?:struct|enum|trait|impl|fn)\b`, applied with
`re.match` to the raw (untrimmed) line. -/
def itemStartM (s : Line) : Bool := itemKw s || pubWsThen itemKw s

/-- Keyword alternative of `use_mod_re`: `(?:use|mod)\b`. -/
def useModKw (s : Line) : Bool := kwB ['u','s','e'] s || kwB ['m','o','d'] s

/-- `use_mod_re = ^(?:pub\s+)?(?:use|mod)\b`, applied to the raw line. -/
def useModM (s : Line) : Bool := useModKw s || pubWsThen useModKw s

/-- `use_re = ^(?:pub\s+)?use\s+` of `group_import_blocks`. -/
def useGroupM (s : Line) : Bool :=
  kwWsB ['u','s','e'] s || pubWsThen (kwWsB ['u','s','e']) s

/-- `mod_re = ^(?:pub\s+)?mod\s+` of `group_import_blocks`. -/
def modGroupM (s : Line) : Bool :=
  kwWsB ['m','o','d'] s || pubWsThen (kwWsB ['m','o','d']) s

/-- `use_re.match(l) or mod_re.match(l)` in `group_import_blocks`. -/
def groupUseModM (s : Line) : Bool := useGroupM s || modGroupM s

/-- `line.strip().startswith(("#[", "//!", "///"))`, applied to the stripped line. -/
def attrDocM (s : Line) : Bool :=
  prefixB ['#','['] s || prefixB ['/','/','!'] s || prefixB ['/','/','/'] s

/-- Recursive core of `ensure_single_blank_between_items`: the Python loop
appends `lines[i]` and then one `"\n"` when `lines[i+1]` matches an item or
use/mod start, `lines[i]` is non-blank, and `lines[i]` is not an
attribute/doc line. -/
def ensureGo : List Line → List Line
  | [] => []
  | [l] => [l]
  | l :: nxt :: rest =>
      l ::
        ((if (itemStartM nxt || useModM nxt) && !isBlankL l && !attrDocM (stripL l)
          then [nl] else []) ++ ensureGo (nxt :: rest))

/-- `ensure_single_blank_between_items(lines)`. -/
def ensure_single_blank_between_items (lines : List Line) : List Line := ensureGo lines

/-- `out and out[-1].strip() != ""` where `last` is the last emitted line
(`none` when `out` is empty). -/
def lastNonBlankOK : Option Line → Bool
  | some p => !isBlankL p
  | none => false

/-- Recursive core of `group_import_blocks`.  `prevUse` records whether the
previous input line belonged to a use/mod run (the Python inner `while`);
`last` is the previous original line, which is always the last element of
`out` when the Python code tests `out[-1]`.  A blank is inserted before the
first line of a run when the previous line is non-blank, and before the
first non-run line after a run when that line is non-blank. -/
def groupGo (prevUse : Bool) (last : Option Line) : List Line → List Line
  | [] => []
  | l :: rest =>
    if groupUseModM l then
      (if !prevUse && lastNonBlankOK last then [nl] else []) ++
        l :: groupGo true (some l) rest
    else
      (if prevUse && !isBlankL l then [nl] else []) ++
        l :: groupGo false (some l) rest

/-- `group_import_blocks(lines)`. -/
def group_import_blocks (lines : List Line) : List Line := groupGo false none lines

/-- `is_resource_line` of `plugin_chain_spacing` (substring tests on the stripped line). -/
def is_resource_line (s : Line) : Bool :=
  subStrB (lineOf ".init_resource(") s || subStrB (lineOf ".insert_resource(") s ||
  subStrB (lineOf ".add_event<") s || subStrB (lineOf ".add_event(") s

/-- `is_configure_sets_line`. -/
def is_configure_sets_line (s : Line) : Bool := subStrB (lineOf ".configure_sets(") s

/-- `is_add_startup_line`. -/
def is_add_startup_line (s : Line) : Bool := subStrB (lineOf ".add_systems(Startup") s

/-- `is_add_update_line`. -/
def is_add_update_line (s : Line) : Bool := subStrB (lineOf ".add_systems(Update") s

/-- The `if/elif` chain of `plugin_chain_spacing`: all three branches perform
the same insertion, so the chain is the disjunction of the three conditions
(`prev` is the stripped previous non-blank line, `""` initially). -/
def phaseCond (s prev : Line) : Bool :=
  (is_configure_sets_line s && !prev.isEmpty && is_resource_line prev) ||
  (is_add_startup_line s && !prev.isEmpty &&
    (is_resource_line prev || is_configure_sets_line prev)) ||
  (is_add_update_line s && !prev.isEmpty &&
    (is_add_startup_line prev || is_configure_sets_line prev || is_resource_line prev))

/-- Recursive core of `plugin_chain_spacing`.  `prevNB` is `prev_nonblank`
(the stripped text of the last non-blank line, `[]` initially); `lastEm` is
the previous original line, the value of `out[-1]` at the guard. -/
def pluginGo (prevNB : Line) (lastEm : Option Line) : List Line → List Line
  | [] => []
  | l :: rest =>
    if (stripL l).isEmpty then l :: pluginGo prevNB (some l) rest
    else
      (if phaseCond (stripL l) prevNB && lastNonBlankOK lastEm then [nl] else []) ++
        l :: pluginGo (stripL l) (some l) rest

/-- `plugin_chain_spacing(lines)`. -/
def plugin_chain_spacing (lines : List Line) : List Line := pluginGo [] none lines

/-- `nxt_s.startswith(("if ", "if(", "match ", "for ", "while ", "loop", "return "))`. -/
def startsControl (s : Line) : Bool :=
  prefixB ['i','f',' '] s || prefixB ['i','f','('] s ||
  prefixB ['m','a','t','c','h',' '] s || prefixB ['f','o','r',' '] s ||
  prefixB ['w','h','i','l','e',' '] s || prefixB ['l','o','o','p'] s ||
  prefixB ['r','e','t','u','r','n',' '] s

/-- The count of opening braces minus the count of closing braces on the
line, `line.count` of each brace character. -/
def braceDelta (l : Line) : Int := (l.count '\x7B' : Int) - (l.count '\x7D' : Int)

/-- Python `stripped.endswith` of the closing brace character. -/
def endsRBrace (s : Line) : Bool := s.getLast? == some '\x7D'

/-- Python `nxt_s.startswith` of the tuple: closing brace, `")"`, `","`,
`"//"`. -/
def badAfterBrace (s : Line) : Bool :=
  prefixB ['\x7D'] s || prefixB [')'] s || prefixB [','] s || prefixB ['/','/'] s

/-- Recursive core of `inside_fn_blank_lines`.  `depth` is `brace_depth`
before the current line (`prev_depth`).  The control-flow insertion's
`out[-1]` guard is always satisfied (it tests the just-appended current
line, which the condition already requires to be non-blank); the
closing-brace insertion's `out[-1]` guard fails exactly when the
control-flow branch just inserted a blank, hence `… && !ctrl`. -/
def insideFnGo (depth : Int) : List Line → List Line
  | [] => []
  | l :: rest =>
    let s := stripL l
    let ctrl :=
      (match rest with
       | [] => false
       | nxt :: _ =>
         decide (depth > 0) && startsControl (stripL nxt) && !s.isEmpty &&
           !prefixB ['/','/'] s)
    let brace :=
      endsRBrace s && decide (depth > 0) &&
        (match rest.dropWhile isBlankL with
         | [] => false
         | nxt :: _ => !badAfterBrace (stripL nxt))
    l :: ((if ctrl then [nl] else []) ++ ((if brace && !ctrl then [nl] else []) ++
      insideFnGo (depth + braceDelta l) rest))

/-- `inside_fn_blank_lines(lines)`. -/
def inside_fn_blank_lines (lines : List Line) : List Line := insideFnGo 0 lines

/-- Recursive core of `cap_consecutive_blank_lines`: `run` is `blank_run`. -/
def capGo (maxB : Nat) (run : Nat) : List Line → List Line
  | [] => []
  | l :: t =>
    if isBlankL l then
      (if run + 1 ≤ maxB then nl :: capGo maxB (run + 1) t else capGo maxB (run + 1) t)
    else
      l :: capGo maxB 0 t

/-- `cap_consecutive_blank_lines(lines, max_blanks)`. -/
def cap_consecutive_blank_lines (lines : List Line) (maxBlanks : Nat) : List Line :=
  capGo maxBlanks 0 lines

/-- The five-pass pipeline of `process_file`, in its source order:
`group_import_blocks`, `ensure_single_blank_between_items`,
`plugin_chain_spacing`, `inside_fn_blank_lines`,
`cap_consecutive_blank_lines(·, 2)`. -/
def applyPipeline (lines : List Line) : List Line :=
  cap_consecutive_blank_lines
    (inside_fn_blank_lines
      (plugin_chain_spacing
        (ensure_single_blank_between_items
          (group_import_blocks lines)))) 2

/-- `"".join(lines)`. -/
def joinLines (lines : List Line) : Line := lines.flatten

/-- `process_file`'s decision `new_txt != txt`: the write happens exactly
when this is `true`. -/
def processFileChanged (lines : List Line) : Bool :=
  decide (joinLines (applyPipeline lines) ≠ joinLines lines)

/-- The subsequence of non-blank lines of a line sequence. -/
def filterNB (lines : List Line) : List Line := lines.filter (fun l => !isBlankL l)

/-- No three consecutive lines are all blank. -/
def noRun3 : List Line → Bool
  | a :: b :: c :: t => !(isBlankL a && isBlankL b && isBlankL c) && noRun3 (b :: c :: t)
  | _ => true

/-- Specification-side description of the blank-line cap at `max_blanks = 2`:
each maximal run of `k` consecutive blank lines becomes `min k 2` bare
newline lines, and non-blank lines pass through unchanged. -/
def capRunSpec : List Line → List Line
  | [] => []
  | l :: t =>
    if isBlankL l then
      List.replicate (min (1 + (t.takeWhile isBlankL).length) 2) nl ++
        capRunSpec (t.dropWhile isBlankL)
    else
      l :: capRunSpec t
termination_by ls => ls.length
decreasing_by
  · simp only [List.length_cons]
    exact Nat.lt_succ_of_le ((List.dropWhile_sublist _).length_le)
  · simp

/-- A line that ends with `'\n'` and contains no other `'\n'` — the shape of
every non-final line produced by `splitlines(keepends=True)`. -/
def nlTermL : Line → Bool
  | [] => false
  | [c] => c == '\n'
  | c :: t => !(c == '\n') && nlTermL t

/-- A non-empty line whose characters before the last are not `'\n'` — the
shape of the final line produced by `splitlines(keepends=True)` (it may or
may not carry a terminator). -/
def lineOKL : Line → Bool
  | [] => false
  | [_] => true
  | c :: t => !(c == '\n') && lineOKL t

/-- A line list is well formed when it is a possible image of
`splitlines(keepends=True)`: every line but the last is newline-terminated
with no interior newline, and the last is non-empty with no interior
newline. -/
def wfLines : List Line → Bool
  | [] => true
  | [l] => lineOKL l
  | l :: t => nlTermL l && wfLines t

/-- The warning printed by `main` for a failing file:
`f"Warning: failed to process \x7bp\x7d: \x7be\x7d"`. -/
def warnLine (p e : String) : String :=
  "Warning: failed to process " ++ p ++ ": " ++ e

/-- Shallow embedding of `main`'s batch loop.  Each file is a path paired
with the outcome of `process_file`: `Except.ok b` when it returns `b`
(`b = true` means the file was rewritten), `Except.error e` when it raises
an exception with message `e`.  The loop catches the error, emits one
warning line, and continues; the result is the final `changed` count and
the sequence of warnings in file order. -/
def runBatch : List (String × Except String Bool) → Nat × List String
  | [] => (0, [])
  | (_, Except.ok b) :: t => ((if b then 1 else 0) + (runBatch t).1, (runBatch t).2)
  | (p, Except.error e) :: t => ((runBatch t).1, warnLine p e :: (runBatch t).2)

/-- The outcomes in a batch that `main` counts as changed files. -/
def okChanged (f : String × Except String Bool) : Bool :=
  match f.2 with
  | Except.ok b => b
  | Except.error _ => false

/-- The warning `main` emits for a file, when its processing fails. -/
def warnOf (f : String × Except String Bool) : Option String :=
  match f.2 with
  | Except.error e => some (warnLine f.1 e)
  | Except.ok _ => none

-- smoke tests (concrete evaluations of the embedding)
example : applyPipeline [lineOf "fn a() \x7B\n", lineOf "\x7D\n", lineOf "b();\n"] =
    [lineOf "fn a() \x7B\n", lineOf "\x7D\n", lineOf "\n", lineOf "b();\n"] := by decide

example : applyPipeline [lineOf "use a::b;\n", lineOf "use c::d;\n", lineOf "fn main() \x7B\x7D\n"] =
    [lineOf "use a::b;\n", lineOf "\n", lineOf "use c::d;\n", lineOf "\n",
     lineOf "fn main() \x7B\x7D\n"] := by
  decide

/-- C1: the five-pass pipeline is not idempotent.  On a three-line input —
an item-opening line, a closing-brace line, then `b();` — the first run
inserts one blank line after the closing brace, and the second run inserts
another one (the closing-brace pass re-fires because its already-blank
guard inspects the line before the brace, not the lines after it), so the
second run's output differs from the first run's output. -/
theorem pipeline_second_run_changes_brace_example :
    applyPipeline (applyPipeline
        [lineOf "fn a() \x7B\n", lineOf "\x7D\n", lineOf "b();\n"]) ≠
      applyPipeline [lineOf "fn a() \x7B\n", lineOf "\x7D\n", lineOf "b();\n"] := by
  decide

/-- C3: the four-line input — an item-opening line, a closing-brace line,
one bare blank line, then `b();` — already satisfies every spacing rule of
the spec (one bare blank line after the closing brace inside the item, no
other rule applies), yet the pipeline changes it — it inserts a second
blank after the brace — so `process_file` compares different texts and
performs a write. -/
theorem pipeline_modifies_wellformatted_brace_example :
    applyPipeline
        [lineOf "fn a() \x7B\n", lineOf "\x7D\n", lineOf "\n", lineOf "b();\n"] ≠
      [lineOf "fn a() \x7B\n", lineOf "\x7D\n", lineOf "\n", lineOf "b();\n"] ∧
    processFileChanged
        [lineOf "fn a() \x7B\n", lineOf "\x7D\n", lineOf "\n", lineOf "b();\n"] = true := by
  decide

/-- C4 counterexample: a run of one blank line does not pass through
`cap_consecutive_blank_lines` unchanged — the whitespace-only line `"  \n"`
is rewritten to the bare newline `"\n"`. -/
theorem cap_rewrites_short_blank_run :
    cap_consecutive_blank_lines [lineOf "  \n"] 2 ≠ [lineOf "  \n"] := by decide

/-- C5: on the spec's concrete scenario the pipeline inserts no blank line at
all: the pattern `.init_resource(` of `is_resource_line` cannot match the
turbofish call `app.init_resource::<Foo>();`, so the phase transition is not
recognized and the two lines stay adjacent (no write would occur). -/
theorem pipeline_inserts_no_blank_for_turbofish_phase_lines :
    applyPipeline
        [lineOf "app.init_resource::<Foo>();\n",
         lineOf "app.configure_sets(Update, MySet);\n"] =
      [lineOf "app.init_resource::<Foo>();\n",
       lineOf "app.configure_sets(Update, MySet);\n"] ∧
    is_resource_line (stripL (lineOf "app.init_resource::<Foo>();\n")) = false ∧
    processFileChanged
        [lineOf "app.init_resource::<Foo>();\n",
         lineOf "app.configure_sets(Update, MySet);\n"] = false := by
  decide

/-- C6 counterexample: `#[cfg(test)]` is an attribute-or-doc line immediately
followed by the import-or-module line `mod tests;`, yet the pipeline
separates them: `group_import_blocks` inserts a blank line before the
`mod` block whenever the previously emitted line is non-blank, with no
attribute/doc exemption. -/
theorem pipeline_separates_attr_from_mod :
    attrDocM (stripL (lineOf "#[cfg(test)]\n")) = true ∧
    useModM (lineOf "mod tests;\n") = true ∧
    applyPipeline [lineOf "#[cfg(test)]\n", lineOf "mod tests;\n"] =
      [lineOf "#[cfg(test)]\n", lineOf "\n", lineOf "mod tests;\n"] := by
  decide

/-- C7 counterexample: `loop_count = 0;` is treated as a control-flow start —
the tuple entry `"loop"` has no trailing space or delimiter — so inside a
block the pipeline inserts a blank line before it. -/
theorem pipeline_inserts_blank_before_loop_ident :
    startsControl (stripL (lineOf "loop_count = 0;\n")) = true ∧
    applyPipeline
        [lineOf "fn a() \x7B\n", lineOf "x();\n", lineOf "loop_count = 0;\n",
         lineOf "\x7D\n"] =
      [lineOf "fn a() \x7B\n", lineOf "x();\n", lineOf "\n",
       lineOf "loop_count = 0;\n", lineOf "\x7D\n"] := by
  decide

/-- C8 counterexample: `use a::b;` and `    use a::b;` have the same trimmed
text, but the raw-line-anchored regexes classify only the unindented one as
import-or-module, and `group_import_blocks` treats the two lines
differently. -/
theorem indented_import_classified_differently :
    stripL (lineOf "    use a::b;\n") = stripL (lineOf "use a::b;\n") ∧
    useModM (lineOf "use a::b;\n") = true ∧
    useModM (lineOf "    use a::b;\n") = false ∧
    group_import_blocks [lineOf "x();\n", lineOf "use a::b;\n"] =
      [lineOf "x();\n", lineOf "\n", lineOf "use a::b;\n"] ∧
    group_import_blocks [lineOf "x();\n", lineOf "    use a::b;\n"] =
      [lineOf "x();\n", lineOf "    use a::b;\n"] := by
  decide

/-! ### Non-blank preservation: each pass only inserts or removes blank lines -/

theorem isBlankL_nl : isBlankL nl = true := by decide

theorem filterNB_cons (l : Line) (xs : List Line) :
    filterNB (l :: xs) = if isBlankL l then filterNB xs else l :: filterNB xs := by
  simp only [filterNB, List.filter_cons]
  cases h : isBlankL l <;> simp

theorem filterNB_nl (xs : List Line) : filterNB (nl :: xs) = filterNB xs := by
  rw [filterNB_cons, if_pos isBlankL_nl]

theorem filterNB_ins (b : Bool) (xs : List Line) :
    filterNB ((if b then [nl] else []) ++ xs) = filterNB xs := by
  cases b
  · simp
  · simpa using filterNB_nl xs

theorem ensureGo_filterNB (ls : List Line) : filterNB (ensureGo ls) = filterNB ls := by
  induction ls with
  | nil => rfl
  | cons l t ih =>
    cases t with
    | nil => rfl
    | cons nxt rest =>
      simp only [ensureGo, filterNB_cons, filterNB_ins, ih]

theorem groupGo_filterNB (ls : List Line) :
    ∀ pu last, filterNB (groupGo pu last ls) = filterNB ls := by
  induction ls with
  | nil => intro _ _; rfl
  | cons l t ih =>
    intro pu last
    simp only [groupGo]
    split <;> simp only [filterNB_ins, filterNB_cons, ih]

theorem pluginGo_filterNB (ls : List Line) :
    ∀ prev lastEm, filterNB (pluginGo prev lastEm ls) = filterNB ls := by
  induction ls with
  | nil => intro _ _; rfl
  | cons l t ih =>
    intro prev lastEm
    simp only [pluginGo]
    split
    · simp only [filterNB_cons, ih]
    · simp only [filterNB_ins, filterNB_cons, ih]

theorem insideFnGo_filterNB (ls : List Line) :
    ∀ d, filterNB (insideFnGo d ls) = filterNB ls := by
  induction ls with
  | nil => intro _; rfl
  | cons l t ih =>
    intro d
    simp only [insideFnGo, List.append_assoc, filterNB_cons, filterNB_ins, ih]

theorem capGo_filterNB (ls : List Line) :
    ∀ m r, filterNB (capGo m r ls) = filterNB ls := by
  induction ls with
  | nil => intro _ _; rfl
  | cons l t ih =>
    intro m r
    simp only [capGo]
    by_cases hb : isBlankL l = true
    · rw [if_pos hb]
      by_cases hr : r + 1 ≤ m
      · rw [if_pos hr, filterNB_nl, ih, filterNB_cons, if_pos hb]
      · rw [if_neg hr, ih, filterNB_cons, if_pos hb]
    · rw [if_neg hb, filterNB_cons, ih, filterNB_cons, if_neg hb]

/-- C2: the full pipeline preserves the subsequence of non-blank lines — in
content and relative order — of every input line sequence: every pass only
inserts or removes blank lines. -/
theorem pipeline_preserves_nonblank_lines (ls : List Line) :
    filterNB (applyPipeline ls) = filterNB ls := by
  unfold applyPipeline cap_consecutive_blank_lines inside_fn_blank_lines
    plugin_chain_spacing ensure_single_blank_between_items group_import_blocks
  rw [capGo_filterNB, insideFnGo_filterNB, pluginGo_filterNB, ensureGo_filterNB,
    groupGo_filterNB]

/-! ### Batch error handling -/

/-- C9: `main`'s loop is total over the batch: every file is processed, each
failing file contributes exactly its one warning line (with its path and the
error message, in batch order), and the final changed count is exactly the
number of files successfully processed with a changed result. -/
theorem batch_isolates_failures_and_counts (fs : List (String × Except String Bool)) :
    (runBatch fs).1 = (fs.filter okChanged).length ∧
    (runBatch fs).2 = fs.filterMap warnOf := by
  induction fs with
  | nil => exact ⟨rfl, rfl⟩
  | cons f t ih =>
    obtain ⟨p, r⟩ := f
    cases r with
    | ok b =>
      cases b
      · simp [runBatch, okChanged, warnOf, List.filter_cons, List.filterMap_cons,
          ih.1, ih.2]
      · simp [runBatch, okChanged, warnOf, List.filter_cons, List.filterMap_cons,
          ih.1, ih.2]
        omega
    | error e =>
      simp [runBatch, okChanged, warnOf, List.filter_cons, List.filterMap_cons,
        ih.1, ih.2]

/-! ### Attribute attachment (ItemSeparator level) -/

/-- C6 amended: `ensure_single_blank_between_items` itself never inserts a
blank line after an attribute-or-doc line, so such a line stays immediately
followed by the line it precedes (the full pipeline does not guarantee this:
`group_import_blocks` has no attribute/doc exemption, see the
counterexample). -/
theorem item_separator_keeps_attr_attached (a y : Line) (t : List Line)
    (h : attrDocM (stripL a) = true) :
    ensure_single_blank_between_items (a :: y :: t) =
      a :: ensure_single_blank_between_items (y :: t) ∧
    (ensure_single_blank_between_items (y :: t)).head? = some y := by
  constructor
  · simp [ensure_single_blank_between_items, ensureGo, h]
  · cases t <;> rfl

/-- Witness for `item_separator_keeps_attr_attached` at a doc-comment line
followed by an item-start line. -/
theorem item_separator_keeps_attr_attached_witness :
    ensure_single_blank_between_items [lineOf "/// Doc.\n", lineOf "fn f() \x7B\x7D\n"] =
      lineOf "/// Doc.\n" ::
        ensure_single_blank_between_items [lineOf "fn f() \x7B\x7D\n"] ∧
    (ensure_single_blank_between_items [lineOf "fn f() \x7B\x7D\n"]).head? =
      some (lineOf "fn f() \x7B\x7D\n") :=
  item_separator_keeps_attr_attached (lineOf "/// Doc.\n") (lineOf "fn f() \x7B\x7D\n") []
    (by decide)

/-! ### Control-flow-start classification -/

/-- C7 amended: a trimmed line is control-flow-start when it starts with
`if` followed by a space or `(`, with `match`, `for`, `while`, or `return`
followed by a space — identifiers extending those keywords are excluded —
or with the bare prefix `loop`, which carries no following-character
requirement, so `loop`-prefixed identifiers such as `loop_count` are
classified as control-flow-start. -/
theorem control_start_keyword_characterization (c : Char) (rest : Line)
    (h1 : ¬ c = ' ') (h2 : ¬ c = '(') :
    startsControl ('l' :: 'o' :: 'o' :: 'p' :: rest) = true ∧
    startsControl ('i' :: 'f' :: c :: rest) = false ∧
    startsControl ('m' :: 'a' :: 't' :: 'c' :: 'h' :: c :: rest) = false ∧
    startsControl ('f' :: 'o' :: 'r' :: c :: rest) = false ∧
    startsControl ('w' :: 'h' :: 'i' :: 'l' :: 'e' :: c :: rest) = false ∧
    startsControl ('r' :: 'e' :: 't' :: 'u' :: 'r' :: 'n' :: c :: rest) = false := by
  have e1 : (' ' == c) = false := beq_eq_false_iff_ne.mpr (Ne.symm h1)
  have e2 : ('(' == c) = false := beq_eq_false_iff_ne.mpr (Ne.symm h2)
  refine ⟨?_, ?_, ?_, ?_, ?_, ?_⟩ <;> simp [startsControl, prefixB, e1, e2]

/-- Witness for `control_start_keyword_characterization` at `c = '_'`. -/
theorem control_start_keyword_characterization_witness :
    startsControl (lineOf "loop_count = 0;") = true ∧
    startsControl (lineOf "if_marker()") = false ∧
    startsControl (lineOf "match_result()") = false ∧
    startsControl (lineOf "for_all()") = false ∧
    startsControl (lineOf "while_let()") = false ∧
    startsControl (lineOf "return_code()") = false := by
  have h := control_start_keyword_characterization '_' (lineOf "x") (by decide) (by decide)
  exact ⟨by decide, by decide, by decide, by decide, by decide, by decide⟩

/-! ### Classification is anchored at the raw line start -/

/-- C8 amended: the item-start and import-or-module regexes are matched
against the raw line anchored at its first character, so a line that begins
with any whitespace character is never classified as item-start or
import-or-module by `ensure_single_blank_between_items` or
`group_import_blocks`: classification is not a function of the trimmed text,
and indented declarations or imports are not grouped or separated. -/
theorem classification_anchored_at_line_start (c : Char) (s : Line)
    (h : pyWs c = true) :
    itemStartM (c :: s) = false ∧ useModM (c :: s) = false ∧
    groupUseModM (c :: s) = false := by
  have hc : c = ' ' ∨ c = '\t' ∨ c = '\n' ∨ c = '\r' ∨ c = '\x0B' ∨ c = '\x0C' := by
    simpa [pyWs, or_assoc] using h
  rcases hc with h | h | h | h | h | h <;> subst h <;>
    refine ⟨?_, ?_, ?_⟩ <;>
      simp [itemStartM, useModM, groupUseModM, useGroupM, modGroupM, itemKw,
        useModKw, kwB, kwWsB, prefixB, pubWsThen]

/-- Witness for `classification_anchored_at_line_start` at an
indented import line. -/
theorem classification_anchored_at_line_start_witness :
    itemStartM (' ' :: lineOf "   use a::b;\n") = false ∧
    useModM (' ' :: lineOf "   use a::b;\n") = false ∧
    groupUseModM (' ' :: lineOf "   use a::b;\n") = false :=
  classification_anchored_at_line_start ' ' (lineOf "   use a::b;\n") (by decide)

/-! ### The blank-line cap -/

theorem dropWhile_head_not (p : Line → Bool) (t : List Line) :
    ∀ r, (t.dropWhile p).head? = some r → p r = false := by
  induction t with
  | nil => intro r h; cases h
  | cons a t' ih =>
    intro r h
    by_cases ha : p a = true
    · rw [List.dropWhile_cons_of_pos ha] at h
      exact ih r h
    · rw [List.dropWhile_cons_of_neg ha] at h
      cases h
      exact Bool.eq_false_iff.mpr ha

theorem capGo_blankRun (bs : List Line) :
    ∀ (k : Nat) (rest : List Line),
      (∀ b ∈ bs, isBlankL b = true) →
      (∀ r, rest.head? = some r → isBlankL r = false) →
      capGo 2 k (bs ++ rest) =
        List.replicate (min bs.length (2 - k)) nl ++ capGo 2 0 rest := by
  induction bs with
  | nil =>
    intro k rest _ hrest
    simp only [List.nil_append, List.length_nil, Nat.zero_min, List.replicate_zero]
    cases rest with
    | nil => rfl
    | cons r rest' =>
      have hr : isBlankL r = false := hrest r rfl
      simp [capGo, hr]
  | cons b bs' ih =>
    intro k rest hbs hrest
    have hb : isBlankL b = true := hbs b (List.mem_cons_self b bs')
    have ih' := ih (k + 1) rest (fun x hx => hbs x (List.mem_cons_of_mem _ hx)) hrest
    simp only [List.cons_append, capGo, List.append_eq]
    rw [if_pos hb]
    by_cases hk : k + 1 ≤ 2
    · rw [if_pos hk, ih']
      have hm : min (b :: bs').length (2 - k) = min bs'.length (2 - (k + 1)) + 1 := by
        simp only [List.length_cons]; omega
      rw [hm, List.replicate_succ, List.cons_append]
    · rw [if_neg hk, ih']
      have hm : min (b :: bs').length (2 - k) = min bs'.length (2 - (k + 1)) := by
        simp only [List.length_cons]; omega
      rw [hm]

theorem capGo_eq_runSpec : ∀ (n : Nat) (ls : List Line), ls.length ≤ n →
    capGo 2 0 ls = capRunSpec ls := by
  intro n
  induction n with
  | zero =>
    intro ls h
    have : ls = [] := List.eq_nil_of_length_eq_zero (Nat.le_zero.mp h)
    subst this
    simp [capGo, capRunSpec]
  | succ n ih =>
    intro ls h
    cases ls with
    | nil => simp [capGo, capRunSpec]
    | cons l t =>
      by_cases hb : isBlankL l = true
      · have hbs : ∀ b ∈ (l :: t.takeWhile isBlankL), isBlankL b = true := by
          intro b hbmem
          rcases List.mem_cons.mp hbmem with h1 | h1
          · subst h1; exact hb
          · exact List.mem_takeWhile_imp h1
        have hrest := dropWhile_head_not isBlankL t
        have hsplit : l :: t = (l :: t.takeWhile isBlankL) ++ t.dropWhile isBlankL := by
          rw [List.cons_append, List.takeWhile_append_dropWhile]
        have hlen : (t.dropWhile isBlankL).length ≤ n := by
          have h1 : (t.dropWhile isBlankL).length ≤ t.length :=
            (List.dropWhile_sublist isBlankL).length_le
          simp only [List.length_cons] at h
          omega
        calc capGo 2 0 (l :: t)
            = capGo 2 0 ((l :: t.takeWhile isBlankL) ++ t.dropWhile isBlankL) := by
              rw [← hsplit]
          _ = List.replicate (min (l :: t.takeWhile isBlankL).length 2) nl ++
                capGo 2 0 (t.dropWhile isBlankL) := capGo_blankRun _ 0 _ hbs hrest
          _ = List.replicate (min (1 + (t.takeWhile isBlankL).length) 2) nl ++
                capRunSpec (t.dropWhile isBlankL) := by
              rw [ih _ hlen]
              simp only [List.length_cons]
              rw [Nat.add_comm]
          _ = capRunSpec (l :: t) := by
              simp only [capRunSpec]
              rw [if_pos hb]
      · have h1 : capGo 2 0 (l :: t) = l :: capGo 2 0 t := by
          simp only [capGo]
          rw [if_neg hb]
        have hlen : t.length ≤ n := by
          simp only [List.length_cons] at h
          omega
        rw [h1, ih t hlen]
        simp only [capRunSpec]
        rw [if_neg hb]

theorem noRun3_cons (x : Line) (xs : List Line) (hx : noRun3 xs = true)
    (h2 : isBlankL x = true → (xs.takeWhile isBlankL).length ≤ 1) :
    noRun3 (x :: xs) = true := by
  cases xs with
  | nil => rfl
  | cons b xs' =>
    cases xs' with
    | nil => rfl
    | cons c t' =>
      simp only [noRun3, Bool.and_eq_true, Bool.not_eq_true']
      refine ⟨?_, hx⟩
      by_cases hbx : isBlankL x = true
      · by_cases hbb : isBlankL b = true
        · by_cases hbc : isBlankL c = true
          · exfalso
            have := h2 hbx
            rw [List.takeWhile_cons_of_pos hbb, List.takeWhile_cons_of_pos hbc] at this
            simp at this
          · simp [hbx, hbb, hbc]
        · simp [hbx, hbb]
      · simp [hbx]

theorem capGo_noRun3 (ls : List Line) :
    ∀ k, noRun3 (capGo 2 k ls) = true ∧
      ((capGo 2 k ls).takeWhile isBlankL).length + min k 2 ≤ 2 := by
  induction ls with
  | nil =>
    intro k
    refine ⟨rfl, ?_⟩
    simp only [capGo, List.takeWhile_nil, List.length_nil]
    omega
  | cons l t ih =>
    intro k
    by_cases hb : isBlankL l = true
    · by_cases hk : k + 1 ≤ 2
      · have hout : capGo 2 k (l :: t) = nl :: capGo 2 (k + 1) t := by
          simp only [capGo]; rw [if_pos hb, if_pos hk]
        obtain ⟨ihr, ihl⟩ := ih (k + 1)
        have hlead : ((capGo 2 (k + 1) t).takeWhile isBlankL).length ≤ 1 - k := by
          omega
        constructor
        · rw [hout]
          refine noRun3_cons _ _ ihr (fun _ => ?_)
          omega
        · rw [hout, List.takeWhile_cons_of_pos isBlankL_nl]
          simp only [List.length_cons]
          omega
      · have hout : capGo 2 k (l :: t) = capGo 2 (k + 1) t := by
          simp only [capGo]; rw [if_pos hb, if_neg hk]
        obtain ⟨ihr, ihl⟩ := ih (k + 1)
        rw [hout]
        exact ⟨ihr, by omega⟩
    · have hout : capGo 2 k (l :: t) = l :: capGo 2 0 t := by
        simp only [capGo]; rw [if_neg hb]
      obtain ⟨ihr, ihl⟩ := ih 0
      constructor
      · rw [hout]
        refine noRun3_cons _ _ ihr (fun hbx => absurd hbx (by simp [hb]))
      · rw [hout, List.takeWhile_cons_of_neg (by simp [hb])]
        simp only [List.length_nil]
        omega

/-- C4 amended: at `max_blanks = 2` the cap collapses every maximal run of
`k` consecutive blank lines to `min k 2` blank lines — so runs of 3 or more
become exactly 2 and runs of 0–2 keep their length — but every retained
blank line is normalized to the bare newline `"\n"` (a short run of
whitespace-only lines does not pass through literally unchanged); the output
never contains a run of more than 2 consecutive blank lines. -/
theorem cap_equals_run_spec_and_caps_runs (ls : List Line) :
    cap_consecutive_blank_lines ls 2 = capRunSpec ls ∧
    noRun3 (cap_consecutive_blank_lines ls 2) = true :=
  ⟨capGo_eq_runSpec ls.length ls (Nat.le_refl _), (capGo_noRun3 ls 0).1⟩

/-! ### Well-formed line lists and join injectivity -/

theorem nlTermL_nl : nlTermL nl = true := by decide

theorem lineOK_of_nlTerm (l : Line) : nlTermL l = true → lineOKL l = true := by
  induction l with
  | nil => intro h; cases h
  | cons c t ih =>
    cases t with
    | nil => intro _; rfl
    | cons d t' =>
      intro h
      simp only [nlTermL, Bool.and_eq_true] at h
      simp only [lineOKL, Bool.and_eq_true]
      exact ⟨h.1, ih h.2⟩

theorem lineOK_ne_nil (l : Line) (h : lineOKL l = true) : l ≠ [] := by
  cases l with
  | nil => cases h
  | cons c t => exact List.cons_ne_nil c t

theorem nlTerm_ne_nil (l : Line) (h : nlTermL l = true) : l ≠ [] :=
  lineOK_ne_nil l (lineOK_of_nlTerm l h)

theorem wf_cons (l : Line) (t : List Line) (h1 : nlTermL l = true)
    (h2 : wfLines t = true) : wfLines (l :: t) = true := by
  cases t with
  | nil => simpa [wfLines] using lineOK_of_nlTerm l h1
  | cons x xs => simp [wfLines, h1, h2]

theorem wf_cons_nl (t : List Line) (h : wfLines t = true) : wfLines (nl :: t) = true :=
  wf_cons nl t nlTermL_nl h

theorem wf_ins (b : Bool) (t : List Line) (h : wfLines t = true) :
    wfLines ((if b then [nl] else []) ++ t) = true := by
  cases b
  · simpa using h
  · simpa using wf_cons_nl t h

theorem wf_destruct (l : Line) (t : List Line) (h : wfLines (l :: t) = true) :
    (t = [] ∧ lineOKL l = true) ∨ (nlTermL l = true ∧ wfLines t = true) := by
  cases t with
  | nil => exact Or.inl ⟨rfl, by simpa [wfLines] using h⟩
  | cons x xs =>
    simp only [wfLines, Bool.and_eq_true] at h
    exact Or.inr h

theorem wf_singleton (l : Line) (h : lineOKL l = true) : wfLines [l] = true := by
  simpa [wfLines] using h

theorem ensureGo_wf (ls : List Line) (h : wfLines ls = true) :
    wfLines (ensureGo ls) = true := by
  induction ls with
  | nil => simpa [ensureGo] using h
  | cons l t ih =>
    cases t with
    | nil => simpa [ensureGo] using h
    | cons nxt rest =>
      have h1 : nlTermL l = true ∧ wfLines (nxt :: rest) = true := by
        simpa [wfLines, Bool.and_eq_true] using h
      simp only [ensureGo]
      exact wf_cons _ _ h1.1 (wf_ins _ _ (ih h1.2))

theorem groupGo_wf (ls : List Line) :
    ∀ pu last, wfLines ls = true → wfLines (groupGo pu last ls) = true := by
  induction ls with
  | nil => intro _ _ h; simpa [groupGo] using h
  | cons l t ih =>
    intro pu last h
    rcases wf_destruct l t h with ⟨ht, hok⟩ | ⟨hterm, hwft⟩
    · subst ht
      simp only [groupGo]
      split
      · exact wf_ins _ _ (wf_singleton l hok)
      · exact wf_ins _ _ (wf_singleton l hok)
    · simp only [groupGo]
      split
      · exact wf_ins _ _ (wf_cons _ _ hterm (ih _ _ hwft))
      · exact wf_ins _ _ (wf_cons _ _ hterm (ih _ _ hwft))

theorem pluginGo_wf (ls : List Line) :
    ∀ prev lastEm, wfLines ls = true → wfLines (pluginGo prev lastEm ls) = true := by
  induction ls with
  | nil => intro _ _ h; simpa [pluginGo] using h
  | cons l t ih =>
    intro prev lastEm h
    rcases wf_destruct l t h with ⟨ht, hok⟩ | ⟨hterm, hwft⟩
    · subst ht
      simp only [pluginGo]
      split
      · exact wf_singleton l hok
      · exact wf_ins _ _ (wf_singleton l hok)
    · simp only [pluginGo]
      split
      · exact wf_cons _ _ hterm (ih _ _ hwft)
      · exact wf_ins _ _ (wf_cons _ _ hterm (ih _ _ hwft))

theorem insideFnGo_wf (ls : List Line) :
    ∀ d, wfLines ls = true → wfLines (insideFnGo d ls) = true := by
  induction ls with
  | nil => intro _ h; simpa [insideFnGo] using h
  | cons l t ih =>
    intro d h
    rcases wf_destruct l t h with ⟨ht, hok⟩ | ⟨hterm, hwft⟩
    · subst ht
      simpa [insideFnGo] using hok
    · simp only [insideFnGo]
      exact wf_cons _ _ hterm (wf_ins _ _ (wf_ins _ _ (ih _ hwft)))

theorem capGo_wf (ls : List Line) :
    ∀ m r, wfLines ls = true → wfLines (capGo m r ls) = true := by
  induction ls with
  | nil => intro _ _ h; simpa [capGo] using h
  | cons l t ih =>
    intro m r h
    rcases wf_destruct l t h with ⟨ht, hok⟩ | ⟨hterm, hwft⟩
    · subst ht
      by_cases hb : isBlankL l = true
      · simp only [capGo]
        rw [if_pos hb]
        by_cases hr : r + 1 ≤ m
        · rw [if_pos hr]
          exact wf_singleton nl (by decide)
        · rw [if_neg hr]
          rfl
      · simp only [capGo]
        rw [if_neg hb]
        exact wf_singleton l hok
    · by_cases hb : isBlankL l = true
      · simp only [capGo]
        rw [if_pos hb]
        by_cases hr : r + 1 ≤ m
        · rw [if_pos hr]
          exact wf_cons_nl _ (ih _ _ hwft)
        · rw [if_neg hr]
          exact ih _ _ hwft
      · simp only [capGo]
        rw [if_neg hb]
        exact wf_cons _ _ hterm (ih _ _ hwft)

theorem applyPipeline_wf (ls : List Line) (h : wfLines ls = true) :
    wfLines (applyPipeline ls) = true := by
  unfold applyPipeline cap_consecutive_blank_lines inside_fn_blank_lines
    plugin_chain_spacing ensure_single_blank_between_items group_import_blocks
  exact capGo_wf _ _ _ (insideFnGo_wf _ _ (pluginGo_wf _ _ _ (ensureGo_wf _
    (groupGo_wf _ _ _ h))))

theorem joinLines_cons (l : Line) (ls : List Line) :
    joinLines (l :: ls) = l ++ joinLines ls := rfl

theorem wf_destruct2 (l : Line) (t : List Line) (h : wfLines (l :: t) = true) :
    (t = [] ∧ lineOKL l = true) ∨ (t ≠ [] ∧ nlTermL l = true ∧ wfLines t = true) := by
  cases t with
  | nil => exact Or.inl ⟨rfl, by simpa [wfLines] using h⟩
  | cons x xs =>
    simp only [wfLines, Bool.and_eq_true] at h
    exact Or.inr ⟨List.cons_ne_nil x xs, h.1, h.2⟩

theorem joinLines_eq_nil (ms : List Line) (h : wfLines ms = true)
    (hj : joinLines ms = []) : ms = [] := by
  cases ms with
  | nil => rfl
  | cons m s =>
    exfalso
    rw [joinLines_cons] at hj
    have hm : m = [] := (List.append_eq_nil.mp hj).1
    rcases wf_destruct m s h with ⟨_, hok⟩ | ⟨hterm, _⟩
    · exact lineOK_ne_nil m hok hm
    · exact nlTerm_ne_nil m hterm hm

theorem joinLines_ne_nil (x : Line) (xs : List Line) (h : wfLines (x :: xs) = true) :
    joinLines (x :: xs) ≠ [] := by
  intro hj
  exact List.cons_ne_nil x xs (joinLines_eq_nil _ h hj)

theorem lineOK_append (r : Line) (hr : r ≠ []) :
    ∀ m, nlTermL m = true → lineOKL (m ++ r) = false := by
  intro m
  induction m with
  | nil => intro h; cases h
  | cons c m' ih =>
    intro h
    cases m' with
    | nil =>
      have hc : c = '\n' := by simpa [nlTermL] using h
      subst hc
      cases r with
      | nil => exact absurd rfl hr
      | cons d r' => simp [lineOKL]
    | cons e m'' =>
      simp only [nlTermL, Bool.and_eq_true] at h
      have hrec : lineOKL ((e :: m'') ++ r) = false := ih h.2
      simp only [List.cons_append] at hrec ⊢
      simp only [lineOKL, hrec, Bool.and_false]

theorem nlTerm_append_inj : ∀ (a : Line), nlTermL a = true → ∀ (b x y : Line),
    nlTermL b = true → a ++ x = b ++ y → a = b ∧ x = y := by
  intro a
  induction a with
  | nil => intro h; cases h
  | cons c a' ih =>
    intro ha b x y hb heq
    cases b with
    | nil => cases hb
    | cons d b' =>
      rw [List.cons_append, List.cons_append] at heq
      injection heq with h1 h2
      subst h1
      cases a' with
      | nil =>
        have hc : c = '\n' := by simpa [nlTermL] using ha
        cases b' with
        | nil => exact ⟨rfl, by simpa using h2⟩
        | cons e b'' =>
          exfalso
          subst hc
          simp [nlTermL] at hb
      | cons f a'' =>
        cases b' with
        | nil =>
          exfalso
          have hd : c = '\n' := by simpa [nlTermL] using hb
          subst hd
          simp [nlTermL] at ha
        | cons e b'' =>
          simp only [nlTermL, Bool.and_eq_true] at ha hb
          obtain ⟨h3, h4⟩ :=
            ih ha.2 (e :: b'') x y hb.2 (by simpa using h2)
          exact ⟨by rw [h3], h4⟩

theorem joinLines_inj : ∀ (ls ms : List Line), wfLines ls = true → wfLines ms = true →
    joinLines ls = joinLines ms → ls = ms := by
  intro ls
  induction ls with
  | nil =>
    intro ms _ hms hj
    exact (joinLines_eq_nil ms hms (by simpa using hj.symm)).symm
  | cons l t ih =>
    intro ms hls hms hj
    cases ms with
    | nil => exact absurd (by simpa using hj) (joinLines_ne_nil l t hls)
    | cons m s =>
      rw [joinLines_cons, joinLines_cons] at hj
      rcases wf_destruct2 l t hls with ⟨ht, hokl⟩ | ⟨htne, hterml, hwft⟩
      · subst ht
        rcases wf_destruct2 m s hms with ⟨hs, hokm⟩ | ⟨hsne, htermm, hwfs⟩
        · subst hs
          have : l = m := by simpa using hj
          rw [this]
        · exfalso
          have hjs : joinLines s ≠ [] := by
            cases s with
            | nil => exact absurd rfl hsne
            | cons z zs => exact joinLines_ne_nil z zs hwfs
          have hl : l = m ++ joinLines s := by simpa [joinLines] using hj
          have hbad := lineOK_append (joinLines s) hjs m htermm
          rw [← hl, hokl] at hbad
          cases hbad
      · rcases wf_destruct2 m s hms with ⟨hs, hokm⟩ | ⟨hsne, htermm, hwfs⟩
        · subst hs
          exfalso
          have hjt : joinLines t ≠ [] := by
            cases t with
            | nil => exact absurd rfl htne
            | cons z zs => exact joinLines_ne_nil z zs hwft
          have hm : m = l ++ joinLines t := by simpa [joinLines] using hj.symm
          have hbad := lineOK_append (joinLines t) hjt l hterml
          rw [← hm, hokm] at hbad
          cases hbad
        · obtain ⟨hab, hxy⟩ :=
            nlTerm_append_inj l hterml m (joinLines t) (joinLines s) htermm hj
          rw [hab, ih s hwft hwfs hxy]

theorem capGo_blank_eq_nl (ls : List Line) :
    ∀ m r l, l ∈ capGo m r ls → isBlankL l = true → l = nl := by
  induction ls with
  | nil =>
    intro m r l hl _
    simp [capGo] at hl
  | cons a t ih =>
    intro m r l hl hb
    by_cases ha : isBlankL a = true
    · simp only [capGo] at hl
      rw [if_pos ha] at hl
      by_cases hr' : r + 1 ≤ m
      · rw [if_pos hr'] at hl
        rcases List.mem_cons.mp hl with h1 | h1
        · exact h1
        · exact ih _ _ _ h1 hb
      · rw [if_neg hr'] at hl
        exact ih _ _ _ hl hb
    · simp only [capGo] at hl
      rw [if_neg ha] at hl
      rcases List.mem_cons.mp hl with h1 | h1
      · subst h1; exact absurd hb (by simp [ha])
      · exact ih _ _ _ h1 hb

/-- C10: every blank line in the pipeline's output is the bare newline
`"\n"` (the final pass re-emits each retained blank as `"\n"`), and on any
well-formed line list containing a blank line that is not exactly `"\n"` —
a whitespace-only line with spaces or tabs, or a whitespace-only final line
lacking its terminator — the pipeline's output text differs from the input
text, so `process_file` always rewrites such a file. -/
theorem pipeline_blank_lines_are_bare_newlines (ls : List Line) :
    (∀ l ∈ applyPipeline ls, isBlankL l = true → l = nl) ∧
    (wfLines ls = true →
      ∀ l ∈ ls, isBlankL l = true → l ≠ nl →
        joinLines (applyPipeline ls) ≠ joinLines ls) := by
  constructor
  · intro l hmem hb
    exact capGo_blank_eq_nl _ _ _ _ hmem hb
  · intro hwf l hmem hb hne hj
    have heq : applyPipeline ls = ls :=
      joinLines_inj _ _ (applyPipeline_wf ls hwf) hwf hj
    have hmem' : l ∈ applyPipeline ls := by rw [heq]; exact hmem
    exact hne (capGo_blank_eq_nl _ _ _ _ hmem' hb)

/-- Witness for `pipeline_blank_lines_are_bare_newlines`: a file whose blank
line consists of two spaces is rewritten even though its blank-line
placement is already conforming. -/
theorem pipeline_blank_lines_are_bare_newlines_witness :
    joinLines (applyPipeline [lineOf "a\n", lineOf "  \n", lineOf "b\n"]) ≠
      joinLines [lineOf "a\n", lineOf "  \n", lineOf "b\n"] :=
  (pipeline_blank_lines_are_bare_newlines
      [lineOf "a\n", lineOf "  \n", lineOf "b\n"]).2 (by decide) (lineOf "  \n")
    (by decide) (by decide) (by decide)
